import Mathlib

/-!
Verification of the position delta and sentiment tracking engine of the
hyperliquid_whales repository.  The Python sources are shallowly embedded:
dict-shaped records become structures, floats become exact integers (the
claims only concern comparisons, signs and arithmetic identities), Python
dicts become association lists with insert-or-overwrite semantics, raised
exceptions become `Except` values, and `time.sleep` calls become entries of
an explicit sleep trace.
-/

/-- USD notional floor used by the fill analyzers (`config.MIN_POSITION_VALUE`,
also hardcoded in `recent_24h_positions.py`). -/
def MIN_POSITION_VALUE : Int := 100000

/-- Threshold used by `whale_score_tracker.py` when classifying open positions
(`MIN_POSITION_TRACKER_VALUE` at the top of that script). -/
def MIN_POSITION_TRACKER_VALUE : Int := 50000

/-- Retry budget of the request helpers (`config.MAX_RETRIES`, also the
default `max_retries=5` of `recent_24h_positions.make_request_with_retry`). -/
def MAX_RETRIES : Nat := 5

/-- Base backoff delay in seconds (`base_delay = 2` in
`recent_24h_positions.make_request_with_retry`, `config.BASE_DELAY`). -/
def BASE_DELAY : ℚ := 2

/-- Maximum backoff delay in seconds (`max_delay = 30`, `config.MAX_DELAY`). -/
def MAX_DELAY : ℚ := 30

/-- Python dict assignment `m[k] = v` on an association list: if the key is
present its value is replaced in place, otherwise the pair is appended. -/
def dictInsert {α β : Type} [DecidableEq α] : List (α × β) → α → β → List (α × β)
  | [], k, v => [(k, v)]
  | (k', v') :: rest, k, v =>
      if k' = k then (k', v) :: rest else (k', v') :: dictInsert rest k v

/-- Side of a new position, `'long' if size > 0 else 'short'` in
`whale_score_tracker.process_whale`. -/
inductive Side where
  | long
  | short
deriving DecidableEq, Repr

/-- One entry of the `assetPositions` list of a user-state response:
`coin`, signed size `szi` and `positionValue`. -/
structure RawPosition where
  coin : String
  szi : Int
  positionValue : Int
deriving DecidableEq, Repr

/-- Filter applied by `process_whale` to each open position:
`size != 0 and position_value >= MIN_POSITION_TRACKER_VALUE`. -/
def qualifies (p : RawPosition) : Bool :=
  p.szi != 0 && decide (MIN_POSITION_TRACKER_VALUE ≤ p.positionValue)

/-- The `is_new_position` test of `process_whale`: the wallet is absent from
`previous_positions` (modelled as `none`) or the coin is absent from its
recorded asset set. -/
def isNewPosition (prev : Option (Finset String)) (coin : String) : Bool :=
  match prev with
  | none => true
  | some s => decide (coin ∉ s)

/-- One iteration of the `assetPositions` loop of
`WhaleScoreTracker.process_whale`: a qualifying position joins
`current_assets`, and when it is new its side joins the `new_positions`
dict under its coin. -/
def classifyStep (prev : Option (Finset String))
    (acc : Finset String × List (String × Side)) (p : RawPosition) :
    Finset String × List (String × Side) :=
  if qualifies p then
    let cur := insert p.coin acc.1
    if isNewPosition prev p.coin then
      (cur, dictInsert acc.2 p.coin (if 0 < p.szi then Side.long else Side.short))
    else
      (cur, acc.2)
  else acc

/-- Core loop of `WhaleScoreTracker.process_whale` over the `assetPositions`
list: accumulates the `current_assets` set and the `new_positions` dict
(coin to side, dict-assignment semantics). -/
def classifyPositions (prev : Option (Finset String)) (positions : List RawPosition) :
    Finset String × List (String × Side) :=
  positions.foldl (classifyStep prev) (∅, [])

/-- Asset set the spec attributes to a wallet's previous snapshot: the
recorded set, or the empty set when the wallet was never seen. -/
def prevAssets (prev : Option (Finset String)) : Finset String :=
  prev.getD ∅

/-- Coins of the positions passing the `process_whale` filter. -/
def qualCoins (ps : List RawPosition) : Finset String :=
  ((ps.filter (fun p => qualifies p)).map RawPosition.coin).toFinset

/-- Coins of the qualifying positions that are also new relative to the
previous snapshot. -/
def newQualCoins (prev : Option (Finset String)) (ps : List RawPosition) : Finset String :=
  ((ps.filter (fun p => qualifies p && isNewPosition prev p.coin)).map
    RawPosition.coin).toFinset

/-- Result of fetching one wallet's user state: an exception (`error`), a
response that is not a dict with an `assetPositions` key (`ok none`), or a
well-formed list of positions (`ok (some ps)`). -/
abbrev FetchResult : Type := Except Unit (Option (List RawPosition))

/-- `WhaleScoreTracker.process_whale` including its exception handler and the
malformed-response guard: both degenerate cases contribute
`(set(), \x7b\x7d)`. -/
def processWhale (prev : Option (Finset String)) (fetch : FetchResult) :
    Finset String × List (String × Side) :=
  match fetch with
  | .error _ => (∅, [])
  | .ok none => (∅, [])
  | .ok (some ps) => classifyPositions prev ps

/-- A per-wallet fetch outcome that `process_whale` treats as a failure. -/
def fetchFailed (r : FetchResult) : Prop :=
  r = .error () ∨ r = .ok none

/-- The fan-out of `analyze_positions`: each tracked wallet is processed and
contributes a `(wallet, current assets, new positions)` result.  Completion
order is irrelevant to every aggregate, so the collection is modelled in
wallet-list order. -/
def scan (wallets : List String) (prevMap : String → Option (Finset String))
    (fetch : String → FetchResult) :
    List (String × Finset String × List (String × Side)) :=
  wallets.map (fun w => (w, processWhale (prevMap w) (fetch w)))

/-- The completion callback `self.previous_positions[whale_address] =
current_assets`, applied for every wallet of the cycle. -/
def nextPrev (wallets : List String) (prevMap : String → Option (Finset String))
    (fetch : String → FetchResult) : String → Option (Finset String) :=
  fun w =>
    if w ∈ wallets then some (processWhale (prevMap w) (fetch w)).1 else prevMap w

/-- Modelled from the spec: the current-asset set claimed in section 4.4,
membership decided solely by `abs(notionalValue) ≥ MIN_POSITION_VALUE`. -/
def specCurrentAssets (positions : List RawPosition) : Finset String :=
  ((positions.filter (fun p => decide (MIN_POSITION_VALUE ≤ |p.positionValue|))).map
    RawPosition.coin).toFinset

example :
    (classifyPositions none [⟨"A", 1, 60000⟩]).1 = {"A"} := by decide

example : specCurrentAssets [⟨"A", 1, 60000⟩] = ∅ := by decide

/-- A raw fill record as returned by the `userFillsByTime` endpoint:
order type, wall-clock time (ms), coin, direction label, size and price. -/
structure Fill where
  orderType : String
  time : Int
  coin : String
  dir : String
  sz : Int
  px : Int
deriving DecidableEq, Repr

/-- The reshaped trade record stored into `unique_trades` by
`RecentWhalePositionAnalyzer.get_recent_positions`. -/
structure Trade where
  coin : String
  size : Int
  entry_price : Int
  position_value : Int
  timestamp : Int
  is_open : Bool
  is_long : Bool
deriving DecidableEq, Repr

/-- ASCII lowercase of one character (Python `str.lower` restricted to the
ASCII range, which covers every order-type tag compared against). -/
def charLower (c : Char) : Char :=
  if 65 ≤ c.toNat ∧ c.toNat ≤ 90 then Char.ofNat (c.toNat + 32) else c

/-- ASCII `str.lower()`. -/
def strLower (s : String) : String :=
  ⟨s.data.map charLower⟩

/-- Python `str.startswith`, computed on the character lists. -/
def strStartsWith (s pre : String) : Bool :=
  pre.data.isPrefixOf s.data

/-- Direction test `dir_str == 'Open Long' or dir_str == 'Close Short'`. -/
def fillIsLong (f : Fill) : Bool :=
  f.dir == "Open Long" || f.dir == "Close Short"

/-- Direction test `dir_str.startswith('Open')`. -/
def fillIsOpen (f : Fill) : Bool :=
  strStartsWith f.dir "Open"

/-- The three filters of `get_recent_positions` applied to each fill: not a
TWAP order, inside the inclusive time window, and absolute notional value
(size times price) at least `MIN_POSITION_VALUE`. -/
def fillPasses (cutoff current : Int) (f : Fill) : Bool :=
  !(strLower f.orderType == "twap") &&
    decide (cutoff ≤ f.time) && decide (f.time ≤ current) &&
    decide (MIN_POSITION_VALUE ≤ |f.sz * f.px|)

/-- The record stored for a surviving fill: signed size via the direction,
entry price, notional value, timestamp and the two direction flags. -/
def toTrade (f : Fill) : Trade :=
  { coin := f.coin
    size := if fillIsLong f then f.sz else -f.sz
    entry_price := f.px
    position_value := f.sz * f.px
    timestamp := f.time
    is_open := fillIsOpen f
    is_long := fillIsLong f }

/-- The components of the composite identity string
`f"{wallet}_{coin}_{is_long}_{is_open}_{size}_{price}_{time}"`; within one
wallet call the joined string determines and is determined by this tuple
(the numeric and boolean segments cannot absorb underscore-containing coin
names). -/
structure TradeKey where
  wallet : String
  coin : String
  is_long : Bool
  is_open : Bool
  sz : Int
  px : Int
  time : Int
deriving DecidableEq, Repr

/-- The composite identity key of a fill. -/
def tradeKey (w : String) (f : Fill) : TradeKey :=
  ⟨w, f.coin, fillIsLong f, fillIsOpen f, f.sz, f.px, f.time⟩

/-- The key a stored trade corresponds to, reconstructed from its fields. -/
def keyOfTrade (w : String) (t : Trade) : TradeKey :=
  ⟨w, t.coin, t.is_long, t.is_open, if t.is_long then t.size else -t.size,
    t.entry_price, t.timestamp⟩

/-- The `unique_trades` dict after the filtering loop of
`get_recent_positions`: every passing fill is assigned under its composite
key with dict-assignment semantics. -/
def collectTrades (w : String) (cutoff current : Int) (fills : List Fill) :
    List (TradeKey × Trade) :=
  fills.foldl
    (fun m f => if fillPasses cutoff current f then dictInsert m (tradeKey w f) (toTrade f) else m)
    []

/-- Timestamp order used for the final `sort(key=lambda x: x['timestamp'])`. -/
def tradeLE (a b : Trade) : Prop := a.timestamp ≤ b.timestamp

instance : DecidableRel tradeLE :=
  fun a b => inferInstanceAs (Decidable (a.timestamp ≤ b.timestamp))

instance : IsTotal Trade tradeLE := ⟨fun a b => Int.le_total a.timestamp b.timestamp⟩

instance : IsTrans Trade tradeLE := ⟨fun _ _ _ h h' => le_trans h h'⟩

/-- The deduplication pipeline of
`RecentWhalePositionAnalyzer.get_recent_positions` (with the network fetch
factored out): filter, key-deduplicate, then sort ascending by timestamp. -/
def getRecentPositions (w : String) (cutoff current : Int) (fills : List Fill) :
    List Trade :=
  List.insertionSort tradeLE ((collectTrades w cutoff current fills).map Prod.snd)

/-- Canonical re-encoding of a stored trade as a fill, inverting the
reshaping of `toTrade` (direction label recovered from the two flags, size
unsigned, empty order type): used to state idempotence of the pipeline. -/
def tradeToFill (t : Trade) : Fill :=
  { orderType := ""
    time := t.timestamp
    coin := t.coin
    dir := if t.is_long then (if t.is_open then "Open Long" else "Close Short")
           else (if t.is_open then "Open Short" else "Close Long")
    sz := if t.is_long then t.size else -t.size
    px := t.entry_price }

example :
    getRecentPositions "w" 0 10
      [⟨"Market", 5, "ETH", "Open Long", 3, 40000⟩,
       ⟨"Market", 5, "ETH", "Open Long", 3, 40000⟩,
       ⟨"Twap", 4, "BTC", "Open Long", 2, 60000⟩,
       ⟨"Market", 3, "SOL", "Open Short", 1, 120000⟩] =
      [⟨"SOL", -1, 120000, 120000, 3, true, false⟩,
       ⟨"ETH", 3, 40000, 120000, 5, true, true⟩] := by decide

/-- Accumulator of the result-collection loop of
`WhaleScoreTracker.analyze_positions`: the running `new_longs` and
`new_shorts` counters and the `longing_wallets` / `shorting_wallets`
address sets. -/
structure AggState where
  new_longs : Nat
  new_shorts : Nat
  longing : Finset String
  shorting : Finset String
deriving DecidableEq

/-- Per-wallet inner loop of `analyze_positions`: every `'long'` value of
the wallet's `new_positions` dict increments `new_longs`, every other value
increments `new_shorts`, and the wallet joins each set for which it has at
least one event. -/
def aggregateWallet (st : AggState) (w : String) (nps : List (String × Side)) :
    AggState :=
  let longsHere := nps.countP (fun e => e.2 == Side.long)
  let shortsHere := nps.countP (fun e => !(e.2 == Side.long))
  { new_longs := st.new_longs + longsHere
    new_shorts := st.new_shorts + shortsHere
    longing := if nps.any (fun e => e.2 == Side.long) then insert w st.longing else st.longing
    shorting := if nps.any (fun e => !(e.2 == Side.long)) then insert w st.shorting
                else st.shorting }

/-- The reduction of all per-wallet results performed by
`analyze_positions`. -/
def aggregateResults (results : List (String × List (String × Side))) : AggState :=
  results.foldl (fun st wr => aggregateWallet st wr.1 wr.2) ⟨0, 0, ∅, ∅⟩

/-- The aggregated score `new_longs - new_shorts` of `analyze_positions`. -/
def scoreOf (results : List (String × List (String × Side))) : Int :=
  ((aggregateResults results).new_longs : Int) - (aggregateResults results).new_shorts

/-- All new-position events of a result collection, in order. -/
def allEvents (results : List (String × List (String × Side))) :
    List (String × Side) :=
  results.flatMap (fun wr => wr.2)

/-- Wallets holding at least one event of the given side, as the claim
counts them: distinct wallets with one or more matching events. -/
def walletsWithSide (results : List (String × List (String × Side)))
    (s : Side) : Finset String :=
  ((results.filter (fun wr => wr.2.any (fun e => e.2 == s))).map Prod.fst).toFinset

/-- One persisted score snapshot of `whale_score_tracker.py`
(timestamps in seconds). -/
structure ScoreSnap where
  timestamp : Int
  score : Int
  longing_wallets : Nat
  shorting_wallets : Nat
deriving DecidableEq, Repr

/-- The 72-hour retention window of the score history, in seconds
(`timedelta(hours=72)`). -/
def retentionSeconds : Int := 72 * 3600

/-- Timestamp order on snapshots (`sort(key=lambda x: x.timestamp)`). -/
def snapLE (a b : ScoreSnap) : Prop := a.timestamp ≤ b.timestamp

instance : DecidableRel snapLE :=
  fun a b => inferInstanceAs (Decidable (a.timestamp ≤ b.timestamp))

instance : IsTotal ScoreSnap snapLE := ⟨fun a b => Int.le_total a.timestamp b.timestamp⟩

instance : IsTrans ScoreSnap snapLE := ⟨fun _ _ _ h h' => le_trans h h'⟩

/-- The append-prune-sort block of `run_tracking_loop` executed after every
cycle under the lock: append the snapshot, drop entries at or before
`now - 72h`, sort ascending by timestamp. -/
def runTrackingStep (history : List ScoreSnap) (snap : ScoreSnap) (now : Int) :
    List ScoreSnap :=
  List.insertionSort snapLE
    ((history ++ [snap]).filter (fun s => decide (now - retentionSeconds < s.timestamp)))

/-- The in-memory history as persisted by `save_history`, which sorts by
timestamp before writing the file. -/
def saveHistory (history : List ScoreSnap) : List ScoreSnap :=
  List.insertionSort snapLE history

/-- What `load_history` reads: a file-level failure, or a list of entries
each of which either parses to a snapshot or fails individually. -/
abbrev HistoryFile : Type := Except Unit (List (Option ScoreSnap))

/-- `WhaleScoreTracker.load_history`: a file-level error yields an empty
history; otherwise unparseable entries are skipped, future-dated snapshots
are discarded, entries older than the retention window are removed, and the
survivors are sorted ascending by timestamp. -/
def loadHistory (file : HistoryFile) (now : Int) : List ScoreSnap :=
  match file with
  | .error _ => []
  | .ok entries =>
      let parsed := (entries.filterMap id).filter (fun s => decide (s.timestamp ≤ now))
      List.insertionSort snapLE
        (parsed.filter (fun s => decide (now - retentionSeconds < s.timestamp)))

example :
    runTrackingStep [⟨0, 1, 1, 0⟩, ⟨40 * 3600, 2, 2, 0⟩] ⟨75 * 3600, 0, 0, 0⟩
      (75 * 3600) =
    [⟨40 * 3600, 2, 2, 0⟩, ⟨75 * 3600, 0, 0, 0⟩] := by decide

example :
    loadHistory (.ok [some ⟨10, 1, 1, 0⟩, none, some ⟨99, 2, 0, 1⟩, some ⟨5, 3, 0, 0⟩])
      20 = [⟨5, 3, 0, 0⟩, ⟨10, 1, 1, 0⟩] := by decide

/-- Outcome of one attempted HTTP post inside `make_request_with_retry`:
a 200 response with a parsed body, a 429 rate limit, any other status
(malformed), or a raised exception (network error, bad JSON). -/
inductive Resp where
  | success (body : Nat)
  | rateLimited
  | malformed
  | netError
deriving DecidableEq, Repr

/-- Label of one `time.sleep` call of `make_request_with_retry`. -/
inductive SleepTag where
  | retryBackoff (attempt : Nat)
  | malformedPause
  | successPause
deriving DecidableEq, Repr

/-- Observable outcome of `make_request_with_retry`: the returned value
(`none` models Python `None`), the number of attempts actually made, and the
trace of sleeps in order. -/
structure ReqOutcome where
  result : Option Nat
  attempts : Nat
  sleeps : List (SleepTag × ℚ)
deriving DecidableEq

/-- The backoff delay `min(base_delay * (2 ** attempt) + random.uniform(0, 1),
max_delay)`; the jitter sample drawn at a given attempt is modelled as an
arbitrary function of the attempt index. -/
def backoffDelay (jitter : Nat → ℚ) (attempt : Nat) : ℚ :=
  min (BASE_DELAY * 2 ^ attempt + jitter attempt) MAX_DELAY

/-- Body of `for attempt in range(max_retries)` in
`RecentWhalePositionAnalyzer.make_request_with_retry` (the
`WhalePositionTracker` copy has the same structure and constants): a 200
returns the body after a half-second pause; a 429 sleeps the backoff delay
and retries; any other status sleeps `base_delay` when attempts remain and
then returns `None` without retrying; an exception retries with the backoff
delay when attempts remain and otherwise returns `None`; a completed loop
returns `None`. -/
def requestLoop (transport : Nat → Resp) (jitter : Nat → ℚ) :
    Nat → Nat → ReqOutcome
  | 0, _ => { result := none, attempts := 0, sleeps := [] }
  | remaining + 1, attempt =>
      match transport attempt with
      | .success b =>
          { result := some b, attempts := 1, sleeps := [(.successPause, 1 / 2)] }
      | .rateLimited =>
          let rest := requestLoop transport jitter remaining (attempt + 1)
          { result := rest.result
            attempts := rest.attempts + 1
            sleeps := (.retryBackoff attempt, backoffDelay jitter attempt) :: rest.sleeps }
      | .malformed =>
          if attempt < MAX_RETRIES - 1 then
            { result := none, attempts := 1, sleeps := [(.malformedPause, BASE_DELAY)] }
          else
            { result := none, attempts := 1, sleeps := [] }
      | .netError =>
          if attempt < MAX_RETRIES - 1 then
            let rest := requestLoop transport jitter remaining (attempt + 1)
            { result := rest.result
              attempts := rest.attempts + 1
              sleeps := (.retryBackoff attempt, backoffDelay jitter attempt) :: rest.sleeps }
          else
            { result := none, attempts := 1, sleeps := [] }

/-- `make_request_with_retry` with the default retry budget. -/
def makeRequestWithRetry (transport : Nat → Resp) (jitter : Nat → ℚ) : ReqOutcome :=
  requestLoop transport jitter MAX_RETRIES 0

example :
    (makeRequestWithRetry (fun n => if n = 0 then .malformed else .success 7)
      (fun _ => 0)).result = none := by decide

example :
    (makeRequestWithRetry (fun n => if n = 0 then .netError else .success 7)
      (fun _ => 0)).result = some 7 := by decide

example :
    (makeRequestWithRetry (fun _ => .rateLimited) (fun _ => 0)).attempts = 5 := by
  decide

/-! ### Lemmas about the dict primitive -/

lemma dictInsert_keys_toFinset {α β : Type} [DecidableEq α]
    (l : List (α × β)) (k : α) (v : β) :
    ((dictInsert l k v).map Prod.fst).toFinset = insert k ((l.map Prod.fst).toFinset) := by
  induction l with
  | nil => simp [dictInsert]
  | cons hd tl ih =>
      by_cases h : hd.1 = k
      · simp [dictInsert, h]
      · simp only [dictInsert, if_neg h, List.map_cons, List.toFinset_cons, ih]
        rw [Finset.Insert.comm]

lemma mem_dictInsert {α β : Type} [DecidableEq α]
    {p : α × β} {l : List (α × β)} {k : α} {v : β}
    (hp : p ∈ dictInsert l k v) : p ∈ l ∨ p = (k, v) := by
  induction l with
  | nil => simpa [dictInsert] using hp
  | cons hd tl ih =>
      by_cases h : hd.1 = k
      · simp only [dictInsert, if_pos h, List.mem_cons] at hp
        rcases hp with hp | hp
        · right
          rw [hp, ← h]
        · left
          exact List.mem_cons_of_mem _ hp
      · simp only [dictInsert, if_neg h, List.mem_cons] at hp
        rcases hp with hp | hp
        · left
          exact hp ▸ List.mem_cons_self _ _
        · rcases ih hp with h' | h'
          · left
            exact List.mem_cons_of_mem _ h'
          · right
            exact h'

lemma dictInsert_of_not_mem {α β : Type} [DecidableEq α]
    {l : List (α × β)} {k : α} (v : β) (hk : k ∉ l.map Prod.fst) :
    dictInsert l k v = l ++ [(k, v)] := by
  induction l with
  | nil => rfl
  | cons hd tl ih =>
      obtain ⟨k1, v1⟩ := hd
      simp only [List.map_cons, List.mem_cons, not_or] at hk
      simp only [dictInsert, if_neg (fun h : k1 = k => hk.1 h.symm), List.cons_append,
        List.cons.injEq, true_and]
      exact ih hk.2

/-! ### Characterization of the position classifier -/

lemma qualifies_iff (p : RawPosition) :
    qualifies p = true ↔ p.szi ≠ 0 ∧ MIN_POSITION_TRACKER_VALUE ≤ p.positionValue := by
  simp [qualifies, bne_iff_ne]

lemma qualCoins_cons (p : RawPosition) (ps : List RawPosition) :
    qualCoins (p :: ps) =
      if qualifies p then insert p.coin (qualCoins ps) else qualCoins ps := by
  by_cases h : qualifies p <;> simp [qualCoins, h]

lemma newQualCoins_cons (prev : Option (Finset String)) (p : RawPosition)
    (ps : List RawPosition) :
    newQualCoins prev (p :: ps) =
      if qualifies p && isNewPosition prev p.coin then
        insert p.coin (newQualCoins prev ps)
      else newQualCoins prev ps := by
  by_cases h : qualifies p && isNewPosition prev p.coin <;> simp [newQualCoins, h]

lemma classify_foldl_characterization (prev : Option (Finset String)) :
    ∀ (ps : List RawPosition) (acc : Finset String × List (String × Side)),
      (ps.foldl (classifyStep prev) acc).1 = acc.1 ∪ qualCoins ps ∧
      ((ps.foldl (classifyStep prev) acc).2.map Prod.fst).toFinset =
        (acc.2.map Prod.fst).toFinset ∪ newQualCoins prev ps
  | [], acc => by simp [qualCoins, newQualCoins]
  | p :: ps, acc => by
      rw [List.foldl_cons, qualCoins_cons, newQualCoins_cons]
      obtain ⟨ih1, ih2⟩ := classify_foldl_characterization prev ps (classifyStep prev acc p)
      by_cases hq : qualifies p
      · by_cases hn : isNewPosition prev p.coin
        · rw [ih1, ih2]
          simp [classifyStep, hq, hn, dictInsert_keys_toFinset,
            Finset.insert_union, Finset.union_insert]
        · rw [ih1, ih2]
          simp [classifyStep, hq, hn, Finset.insert_union, Finset.union_insert]
      · rw [ih1, ih2]
        simp [classifyStep, hq]

lemma classifyPositions_fst (prev : Option (Finset String)) (ps : List RawPosition) :
    (classifyPositions prev ps).1 = qualCoins ps := by
  have h := (classify_foldl_characterization prev ps (∅, [])).1
  simpa [classifyPositions] using h

lemma classifyPositions_snd_keys (prev : Option (Finset String)) (ps : List RawPosition) :
    ((classifyPositions prev ps).2.map Prod.fst).toFinset = newQualCoins prev ps := by
  have h := (classify_foldl_characterization prev ps (∅, [])).2
  simpa [classifyPositions] using h

/-! ### C1: the classifier's current asset set -/

/-- C1 counterexample: the current-asset set computed by `process_whale` is
not the set of assets with `abs(notionalValue) ≥ MIN_POSITION_VALUE`: a
position of value 60000 (below 100000 but at least the script's own 50000
threshold) is included by the code and excluded by the claim. -/
theorem C1_counterexample_threshold :
    (classifyPositions none [⟨"A", 1, 60000⟩]).1 ≠ specCurrentAssets [⟨"A", 1, 60000⟩] := by
  decide

/-- C1 amended: an asset is in the classifier's current set exactly when some
listed position carries it with nonzero size and `positionValue` (taken
as-is, not in absolute value) at least `MIN_POSITION_TRACKER_VALUE = 50000`,
the constant actually used by `whale_score_tracker.py`. -/
theorem C1_amended_current_assets (prev : Option (Finset String))
    (ps : List RawPosition) (c : String) :
    c ∈ (classifyPositions prev ps).1 ↔
      ∃ p ∈ ps, p.coin = c ∧ p.szi ≠ 0 ∧ MIN_POSITION_TRACKER_VALUE ≤ p.positionValue := by
  rw [classifyPositions_fst]
  simp only [qualCoins, List.mem_toFinset, List.mem_map, List.mem_filter, qualifies_iff]
  tauto

/-! ### C4: new-position monotonicity -/

/-- C4: if the previous snapshot already contains every asset of the newly
computed current set, `process_whale` emits no new-position events. -/
theorem C4_new_position_monotonicity (prev : Option (Finset String))
    (ps : List RawPosition)
    (h : (classifyPositions prev ps).1 ⊆ prevAssets prev) :
    (classifyPositions prev ps).2 = [] := by
  have hkeys := classifyPositions_snd_keys prev ps
  rw [classifyPositions_fst] at h
  have hempty : newQualCoins prev ps = ∅ := by
    cases prev with
    | none =>
        have h0 : qualCoins ps = ∅ := Finset.subset_empty.mp h
        have he : newQualCoins none ps = qualCoins ps := by
          simp [newQualCoins, qualCoins, isNewPosition]
        rw [he, h0]
    | some s =>
        rw [Finset.eq_empty_iff_forall_not_mem]
        intro c hc
        simp only [newQualCoins, List.mem_toFinset, List.mem_map, List.mem_filter] at hc
        obtain ⟨p, ⟨hp, hcond⟩, hcoin⟩ := hc
        subst hcoin
        rw [Bool.and_eq_true] at hcond
        have hnew : p.coin ∉ s := by
          simpa [isNewPosition] using hcond.2
        have hcq : p.coin ∈ qualCoins ps := by
          simp only [qualCoins, List.mem_toFinset, List.mem_map, List.mem_filter]
          exact ⟨p, ⟨hp, hcond.1⟩, rfl⟩
        have hmem : p.coin ∈ prevAssets (some s) := h hcq
        simp only [prevAssets, Option.getD_some] at hmem
        exact hnew hmem
  rw [hempty] at hkeys
  have hnil : (classifyPositions prev ps).2.map Prod.fst = [] :=
    (List.toFinset_eq_empty_iff _).mp hkeys
  simpa using hnil

/-- C4 witness: a wallet whose previous snapshot covers its only current
asset yields no events. -/
theorem C4_new_position_monotonicity_witness :
    (classifyPositions (some {"BTC"}) [⟨"BTC", 1, 60000⟩]).1 ⊆ prevAssets (some {"BTC"}) ∧
    (classifyPositions (some {"BTC"}) [⟨"BTC", 1, 60000⟩]).2 = [] :=
  ⟨by decide, C4_new_position_monotonicity (some {"BTC"}) [⟨"BTC", 1, 60000⟩] (by decide)⟩

/-! ### C9: failure clobbers the previous snapshot and causes re-emission -/

/-- C9: when a wallet's per-cycle processing fails, the completion callback
records the empty set as its previous snapshot, and in a subsequent
successful cycle every asset of its current set is emitted again as a new
position (the event coins coincide with the whole current set). -/
theorem C9_failed_wallet_resets_snapshot (wallets : List String)
    (prevMap : String → Option (Finset String)) (fetch : String → FetchResult)
    (w : String) (hw : w ∈ wallets) (hf : fetchFailed (fetch w)) :
    nextPrev wallets prevMap fetch w = some ∅ ∧
    ∀ ps, ((processWhale (nextPrev wallets prevMap fetch w) (.ok (some ps))).2.map
            Prod.fst).toFinset =
          (processWhale (nextPrev wallets prevMap fetch w) (.ok (some ps))).1 := by
  have h1 : nextPrev wallets prevMap fetch w = some ∅ := by
    unfold nextPrev
    rw [if_pos hw]
    rcases hf with hf | hf <;> rw [hf] <;> rfl
  refine ⟨h1, ?_⟩
  intro ps
  rw [h1]
  show ((classifyPositions (some ∅) ps).2.map Prod.fst).toFinset =
    (classifyPositions (some ∅) ps).1
  rw [classifyPositions_snd_keys, classifyPositions_fst]
  simp [newQualCoins, qualCoins, isNewPosition]

/-- C9 witness: a failing fetch for the only tracked wallet resets its
snapshot to the empty set, and a later successful cycle re-emits its
position. -/
theorem C9_failed_wallet_resets_snapshot_witness :
    nextPrev ["w"] (fun _ => some {"BTC"}) (fun _ => Except.error ()) "w" = some ∅ ∧
    ((processWhale (nextPrev ["w"] (fun _ => some {"BTC"}) (fun _ => Except.error ()) "w")
        (.ok (some [⟨"ETH", 1, 60000⟩]))).2.map Prod.fst).toFinset =
      (processWhale (nextPrev ["w"] (fun _ => some {"BTC"}) (fun _ => Except.error ()) "w")
        (.ok (some [⟨"ETH", 1, 60000⟩]))).1 :=
  ⟨(C9_failed_wallet_resets_snapshot ["w"] (fun _ => some {"BTC"})
      (fun _ => Except.error ()) "w" (by decide) (Or.inl rfl)).1,
   (C9_failed_wallet_resets_snapshot ["w"] (fun _ => some {"BTC"})
      (fun _ => Except.error ()) "w" (by decide) (Or.inl rfl)).2 [⟨"ETH", 1, 60000⟩]⟩

/-! ### C5: the sentiment aggregation identity -/

lemma not_long_eq_short :
    (fun e : String × Side => !(e.2 == Side.long)) = fun e => e.2 == Side.short := by
  funext e
  obtain ⟨c, s⟩ := e
  cases s <;> rfl

lemma walletsWithSide_cons (wr : String × List (String × Side))
    (rs : List (String × List (String × Side))) (s : Side) :
    walletsWithSide (wr :: rs) s =
      if wr.2.any (fun e => e.2 == s) then insert wr.1 (walletsWithSide rs s)
      else walletsWithSide rs s := by
  by_cases h : wr.2.any (fun e => e.2 == s) <;> simp [walletsWithSide, h]

lemma aggregate_foldl_characterization :
    ∀ (results : List (String × List (String × Side))) (st : AggState),
      results.foldl (fun st wr => aggregateWallet st wr.1 wr.2) st =
        ⟨st.new_longs + (allEvents results).countP (fun e => e.2 == Side.long),
         st.new_shorts + (allEvents results).countP (fun e => e.2 == Side.short),
         st.longing ∪ walletsWithSide results Side.long,
         st.shorting ∪ walletsWithSide results Side.short⟩
  | [], st => by
      obtain ⟨a, b, c, d⟩ := st
      simp [allEvents, walletsWithSide]
  | wr :: rs, st => by
      rw [List.foldl_cons,
        aggregate_foldl_characterization rs
          (aggregateWallet st wr.1 wr.2)]
      have hall : allEvents (wr :: rs) = wr.2 ++ allEvents rs := by
        simp [allEvents]
      rw [hall, walletsWithSide_cons, walletsWithSide_cons]
      simp only [aggregateWallet, not_long_eq_short, List.countP_append, AggState.mk.injEq]
      refine ⟨by omega, by omega, ?_, ?_⟩
      · by_cases h : wr.2.any (fun e => e.2 == Side.long) <;>
          simp [h, Finset.insert_union, Finset.union_insert]
      · by_cases h : wr.2.any (fun e => e.2 == Side.short) <;>
          simp [h, Finset.insert_union, Finset.union_insert]

lemma aggregateResults_eq (results : List (String × List (String × Side))) :
    aggregateResults results =
      ⟨(allEvents results).countP (fun e => e.2 == Side.long),
       (allEvents results).countP (fun e => e.2 == Side.short),
       walletsWithSide results Side.long,
       walletsWithSide results Side.short⟩ := by
  have h := aggregate_foldl_characterization results ⟨0, 0, ∅, ∅⟩
  simpa [aggregateResults] using h

/-- C5: the aggregated score equals the number of long events minus the
number of short events over all wallets (0 when there are no events), and
the wallet counters equal the numbers of distinct wallets with at least one
long (resp. short) event. -/
theorem C5_score_identity (results : List (String × List (String × Side))) :
    scoreOf results =
      ((allEvents results).countP (fun e => e.2 == Side.long) : Int) -
        ((allEvents results).countP (fun e => e.2 == Side.short) : Int) ∧
    (aggregateResults results).longing.card = (walletsWithSide results Side.long).card ∧
    (aggregateResults results).shorting.card = (walletsWithSide results Side.short).card ∧
    (allEvents results = [] → scoreOf results = 0) := by
  refine ⟨?_, ?_, ?_, ?_⟩
  · rw [scoreOf, aggregateResults_eq]
  · rw [aggregateResults_eq]
  · rw [aggregateResults_eq]
  · intro h
    rw [scoreOf, aggregateResults_eq, h]
    simp

/-- C5 witness: the spec's aggregation scenario (wallet1 one long, wallet2
one long and one short, wallet3 nothing) and the empty collection. -/
theorem C5_score_identity_witness :
    scoreOf [("w1", [("BTC", Side.long)]),
             ("w2", [("ETH", Side.long), ("SOL", Side.short)]),
             ("w3", [])] = 1 ∧
    (aggregateResults [("w1", [("BTC", Side.long)]),
      ("w2", [("ETH", Side.long), ("SOL", Side.short)]), ("w3", [])]).longing.card = 2 ∧
    (aggregateResults [("w1", [("BTC", Side.long)]),
      ("w2", [("ETH", Side.long), ("SOL", Side.short)]), ("w3", [])]).shorting.card = 1 ∧
    scoreOf [] = 0 := by
  have h := C5_score_identity
    [("w1", [("BTC", Side.long)]), ("w2", [("ETH", Side.long), ("SOL", Side.short)]),
     ("w3", [])]
  have h0 := (C5_score_identity []).2.2.2 rfl
  refine ⟨?_, ?_, ?_, h0⟩
  · rw [h.1]
    decide
  · rw [h.2.1]
    decide
  · rw [h.2.2.1]
    decide

/-! ### C6: retention bound and sort order of the history ledger -/

/-- C6: after the append-then-prune block of the tracking loop every entry
is strictly newer than `now` minus the 72-hour retention window and the
history is sorted ascending by timestamp; saving leaves it unchanged, and
the same bounds hold for a freshly loaded history. -/
theorem C6_retention_bound (history : List ScoreSnap) (snap : ScoreSnap)
    (now : Int) (file : HistoryFile) :
    (∀ s ∈ runTrackingStep history snap now, now - retentionSeconds < s.timestamp) ∧
    List.Sorted snapLE (runTrackingStep history snap now) ∧
    saveHistory (runTrackingStep history snap now) = runTrackingStep history snap now ∧
    (∀ s ∈ loadHistory file now, now - retentionSeconds < s.timestamp) ∧
    List.Sorted snapLE (loadHistory file now) := by
  refine ⟨?_, ?_, ?_, ?_, ?_⟩
  · intro s hs
    rw [runTrackingStep, List.mem_insertionSort, List.mem_filter] at hs
    simpa using hs.2
  · exact List.sorted_insertionSort snapLE _
  · exact (List.sorted_insertionSort snapLE _).insertionSort_eq
  · intro s hs
    cases file with
    | error e => simp [loadHistory] at hs
    | ok entries =>
        rw [loadHistory, List.mem_insertionSort, List.mem_filter] at hs
        simpa using hs.2
  · cases file with
    | error e => simp [loadHistory, List.Sorted]
    | ok entries => exact List.sorted_insertionSort snapLE _

/-- C6 witness: the spec's retention scenario, snapshots at hours 0, 40 and
75 with `now` at hour 75. -/
theorem C6_retention_bound_witness :
    (75 : Int) * 3600 - retentionSeconds < (⟨40 * 3600, 2, 2, 0⟩ : ScoreSnap).timestamp ∧
    List.Sorted snapLE
      (runTrackingStep [⟨0, 1, 1, 0⟩, ⟨40 * 3600, 2, 2, 0⟩] ⟨75 * 3600, 0, 0, 0⟩
        (75 * 3600)) :=
  ⟨(C6_retention_bound [⟨0, 1, 1, 0⟩, ⟨40 * 3600, 2, 2, 0⟩] ⟨75 * 3600, 0, 0, 0⟩
      (75 * 3600) (.error ())).1 ⟨40 * 3600, 2, 2, 0⟩ (by decide),
   (C6_retention_bound [⟨0, 1, 1, 0⟩, ⟨40 * 3600, 2, 2, 0⟩] ⟨75 * 3600, 0, 0, 0⟩
      (75 * 3600) (.error ())).2.1⟩

/-! ### C10: semantics of loading the persisted history -/

/-- C10: a file-level read error loads an empty history; every loaded entry
has a timestamp at most `now` and within the retention window; and an entry
that fails to parse is skipped without affecting the rest of the load. -/
theorem C10_load_history (now : Int) :
    loadHistory (.error ()) now = [] ∧
    (∀ entries, ∀ s ∈ loadHistory (.ok entries) now,
        s.timestamp ≤ now ∧ now - retentionSeconds < s.timestamp) ∧
    (∀ l1 l2 : List (Option ScoreSnap),
        loadHistory (.ok (l1 ++ none :: l2)) now = loadHistory (.ok (l1 ++ l2)) now) := by
  refine ⟨rfl, ?_, ?_⟩
  · intro entries s hs
    rw [loadHistory, List.mem_insertionSort, List.mem_filter, List.mem_filter] at hs
    refine ⟨?_, ?_⟩
    · simpa using hs.1.2
    · simpa using hs.2
  · intro l1 l2
    simp [loadHistory, List.filterMap_append]

/-- C10 witness: a load with one future entry, one unparseable entry and two
past entries keeps exactly the past entries, bounded by `now`, and a bad
entry changes nothing. -/
theorem C10_load_history_witness :
    ((⟨10, 1, 1, 0⟩ : ScoreSnap).timestamp ≤ 20 ∧
      (20 : Int) - retentionSeconds < (⟨10, 1, 1, 0⟩ : ScoreSnap).timestamp) ∧
    loadHistory (.ok ([some ⟨10, 1, 1, 0⟩] ++ none :: [some ⟨5, 3, 0, 0⟩])) 20 =
      loadHistory (.ok ([some ⟨10, 1, 1, 0⟩] ++ [some ⟨5, 3, 0, 0⟩])) 20 :=
  ⟨(C10_load_history 20).2.1 [some ⟨10, 1, 1, 0⟩, none, some ⟨99, 2, 0, 1⟩, some ⟨5, 3, 0, 0⟩]
      ⟨10, 1, 1, 0⟩ (by decide),
   (C10_load_history 20).2.2 [some ⟨10, 1, 1, 0⟩] [some ⟨5, 3, 0, 0⟩]⟩

/-! ### C7: partial-failure isolation of the scan -/

/-- C7: a wallet whose fetch raises or returns malformed data still appears
in the scan output, contributing the empty asset set and no events; no
wallet is omitted (the output covers every tracked wallet), and the results
of every other wallet are unaffected by the failure (they agree with those
of any fetch behaviour differing only at the failing wallet); the whole
pipeline is a total function, so no exception escapes the scan. -/
theorem C7_partial_failure_isolation (wallets : List String)
    (prevMap : String → Option (Finset String)) (fetch fetch2 : String → FetchResult)
    (w : String) (hw : w ∈ wallets) (hf : fetchFailed (fetch w))
    (hagree : ∀ v, v ≠ w → fetch v = fetch2 v) :
    (scan wallets prevMap fetch).length = wallets.length ∧
    (w, (∅ : Finset String), ([] : List (String × Side))) ∈ scan wallets prevMap fetch ∧
    (scan wallets prevMap fetch).filter (fun r => r.1 != w) =
      (scan wallets prevMap fetch2).filter (fun r => r.1 != w) := by
  refine ⟨by simp [scan], ?_, ?_⟩
  · refine List.mem_map.mpr ⟨w, hw, ?_⟩
    rcases hf with hf | hf <;> rw [hf] <;> rfl
  · rw [scan, scan, List.filter_map, List.filter_map]
    have hpred :
        ∀ g : String → FetchResult,
          ((fun r : String × Finset String × List (String × Side) => r.1 != w) ∘
            fun v => (v, processWhale (prevMap v) (g v))) = fun v => v != w :=
      fun g => rfl
    rw [hpred fetch, hpred fetch2]
    refine List.map_congr_left ?_
    intro v hv
    have hne : v ≠ w := by simpa using (List.mem_filter.mp hv).2
    rw [hagree v hne]

/-- C7 witness: with two tracked wallets and a fetch that fails only for one
of them, the scan keeps both wallets, gives the failing one an empty
contribution, and the healthy wallet's result matches a failure-free
fetch's. -/
theorem C7_partial_failure_isolation_witness :
    (scan ["a", "w"] (fun _ => none)
        (fun v => if v = "w" then Except.error () else Except.ok none)).length = 2 ∧
    ("w", (∅ : Finset String), ([] : List (String × Side))) ∈
      scan ["a", "w"] (fun _ => none)
        (fun v => if v = "w" then Except.error () else Except.ok none) ∧
    (scan ["a", "w"] (fun _ => none)
        (fun v => if v = "w" then Except.error () else Except.ok none)).filter
        (fun r => r.1 != "w") =
      (scan ["a", "w"] (fun _ => none) (fun _ => Except.ok none)).filter
        (fun r => r.1 != "w") := by
  have h := C7_partial_failure_isolation ["a", "w"] (fun _ => none)
    (fun v => if v = "w" then Except.error () else Except.ok none)
    (fun _ => Except.ok none) "w" (by decide)
    (Or.inl (by norm_num))
    (fun v hv => by simp [hv])
  exact ⟨h.1, h.2.1, h.2.2⟩

/-! ### C8: the retrying request client -/

lemma requestLoop_result_none (t : Nat → Resp) (j : Nat → ℚ) :
    ∀ (rem a : Nat), (∀ n b, a ≤ n → n < a + rem → t n ≠ .success b) →
      (requestLoop t j rem a).result = none := by
  intro rem
  induction rem with
  | zero => intro a _; rfl
  | succ rem ih =>
      intro a h
      cases ht : t a with
      | success b => exact absurd ht (h a b (le_refl a) (by omega))
      | rateLimited =>
          simp only [requestLoop, ht]
          exact ih (a + 1) (fun n b hn hn2 => h n b (by omega) (by omega))
      | malformed =>
          simp only [requestLoop, ht]
          split <;> rfl
      | netError =>
          simp only [requestLoop, ht]
          split
          · exact ih (a + 1) (fun n b hn hn2 => h n b (by omega) (by omega))
          · rfl

lemma requestLoop_malformed_immediate (t : Nat → Resp) (j : Nat → ℚ) :
    ∀ (rem a k : Nat), a + rem = MAX_RETRIES → a ≤ k → k < MAX_RETRIES →
      (∀ i, a ≤ i → i < k → t i = .rateLimited ∨ t i = .netError) →
      t k = .malformed →
      (requestLoop t j rem a).result = none ∧
      (requestLoop t j rem a).attempts = k + 1 - a := by
  have h5 : MAX_RETRIES = 5 := rfl
  intro rem
  induction rem with
  | zero =>
      intro a k h1 h2 h3 _ _
      omega
  | succ rem ih =>
      intro a k h1 h2 h3 hpre hk
      by_cases hak : a = k
      · subst hak
        simp only [requestLoop, hk]
        constructor
        · split <;> rfl
        · split <;> simp
      · have hlt : a < k := lt_of_le_of_ne h2 hak
        have hrec := ih (a + 1) k (by omega) (by omega) h3
          (fun i hi1 hi2 => hpre i (by omega) hi2) hk
        rcases hpre a (le_refl a) hlt with hra | hra
        · simp only [requestLoop, hra]
          refine ⟨hrec.1, ?_⟩
          rw [hrec.2]
          omega
        · simp only [requestLoop, hra]
          rw [if_pos (show a < MAX_RETRIES - 1 by omega)]
          refine ⟨hrec.1, ?_⟩
          simp only [hrec.2]
          omega

lemma requestLoop_retry_delay (t : Nat → Resp) (j : Nat → ℚ) :
    ∀ (rem a : Nat) (i : Nat) (d : ℚ),
      (SleepTag.retryBackoff i, d) ∈ (requestLoop t j rem a).sleeps →
      d = min (BASE_DELAY * 2 ^ i + j i) MAX_DELAY := by
  intro rem
  induction rem with
  | zero =>
      intro a i d hd
      simp [requestLoop] at hd
  | succ rem ih =>
      intro a i d hd
      cases ht : t a with
      | success b =>
          simp only [requestLoop, ht, List.mem_singleton, Prod.mk.injEq] at hd
          exact absurd hd.1 (by simp)
      | rateLimited =>
          simp only [requestLoop, ht, List.mem_cons, Prod.mk.injEq] at hd
          rcases hd with ⟨h1, h2⟩ | hd
          · cases h1
            exact h2
          · exact ih (a + 1) i d hd
      | malformed =>
          simp only [requestLoop, ht] at hd
          rcases Nat.lt_or_ge a (MAX_RETRIES - 1) with hc | hc
          · rw [if_pos hc] at hd
            simp only [List.mem_singleton, Prod.mk.injEq] at hd
            exact absurd hd.1 (by simp)
          · rw [if_neg (Nat.not_lt.mpr hc)] at hd
            simp at hd
      | netError =>
          simp only [requestLoop, ht] at hd
          rcases Nat.lt_or_ge a (MAX_RETRIES - 1) with hc | hc
          · rw [if_pos hc] at hd
            simp only [List.mem_cons, Prod.mk.injEq] at hd
            rcases hd with ⟨h1, h2⟩ | hd
            · cases h1
              exact h2
            · exact ih (a + 1) i d hd
          · rw [if_neg (Nat.not_lt.mpr hc)] at hd
            simp at hd

lemma requestLoop_malformed_pause (t : Nat → Resp) (j : Nat → ℚ) :
    ∀ (rem a : Nat) (d : ℚ),
      (SleepTag.malformedPause, d) ∈ (requestLoop t j rem a).sleeps →
      d = BASE_DELAY := by
  intro rem
  induction rem with
  | zero =>
      intro a d hd
      simp [requestLoop] at hd
  | succ rem ih =>
      intro a d hd
      cases ht : t a with
      | success b =>
          simp only [requestLoop, ht, List.mem_singleton, Prod.mk.injEq] at hd
          exact absurd hd.1 (by simp)
      | rateLimited =>
          simp only [requestLoop, ht, List.mem_cons, Prod.mk.injEq] at hd
          rcases hd with ⟨h1, _⟩ | hd
          · exact absurd h1 (by simp)
          · exact ih (a + 1) d hd
      | malformed =>
          simp only [requestLoop, ht] at hd
          rcases Nat.lt_or_ge a (MAX_RETRIES - 1) with hc | hc
          · rw [if_pos hc] at hd
            simp only [List.mem_singleton, Prod.mk.injEq] at hd
            exact hd.2
          · rw [if_neg (Nat.not_lt.mpr hc)] at hd
            simp at hd
      | netError =>
          simp only [requestLoop, ht] at hd
          rcases Nat.lt_or_ge a (MAX_RETRIES - 1) with hc | hc
          · rw [if_pos hc] at hd
            simp only [List.mem_cons, Prod.mk.injEq] at hd
            rcases hd with ⟨h1, _⟩ | hd
            · exact absurd h1 (by simp)
            · exact ih (a + 1) d hd
          · rw [if_neg (Nat.not_lt.mpr hc)] at hd
            simp at hd

/-- C8 counterexample: with the first attempt answered by a malformed
response and every later attempt by a success, the client returns `None`
after a single attempt even though four attempts remain — a malformed
response is never retried, contradicting the claim. -/
theorem C8_counterexample_malformed_not_retried :
    (makeRequestWithRetry (fun n => if n = 0 then Resp.malformed else Resp.success 7)
        (fun _ => 0)).result = none ∧
    (makeRequestWithRetry (fun n => if n = 0 then Resp.malformed else Resp.success 7)
        (fun _ => 0)).attempts = 1 ∧
    (fun n => if n = 0 then Resp.malformed else Resp.success 7) 1 = Resp.success 7 ∧
    1 < MAX_RETRIES := by
  refine ⟨by decide, by decide, rfl, by decide⟩

/-- C8 amended: the client never raises (it is a total function into an
outcome value); it returns `None` whenever no attempt succeeds, in
particular on exhausted retries; a malformed (non-200, non-429) response
makes it return `None` immediately after at most one flat `BASE_DELAY`
pause, without retrying, even when attempts remain; and every actual retry
delay (for rate-limited responses and exceptions) equals
`min(BASE_DELAY * 2 ^ attempt + jitter, MAX_DELAY)`. -/
theorem C8_amended_retry_client (t : Nat → Resp) (j : Nat → ℚ) :
    ((∀ n b, n < MAX_RETRIES → t n ≠ .success b) →
      (makeRequestWithRetry t j).result = none) ∧
    (∀ k, k < MAX_RETRIES →
      (∀ i, i < k → t i = .rateLimited ∨ t i = .netError) →
      t k = .malformed →
      (makeRequestWithRetry t j).result = none ∧
        (makeRequestWithRetry t j).attempts = k + 1) ∧
    (∀ i d, (SleepTag.retryBackoff i, d) ∈ (makeRequestWithRetry t j).sleeps →
      d = min (BASE_DELAY * 2 ^ i + j i) MAX_DELAY) ∧
    (∀ d, (SleepTag.malformedPause, d) ∈ (makeRequestWithRetry t j).sleeps →
      d = BASE_DELAY) := by
  refine ⟨?_, ?_, ?_, ?_⟩
  · intro h
    exact requestLoop_result_none t j MAX_RETRIES 0 (fun n b hn hn2 => h n b (by omega))
  · intro k hk hpre hmal
    have h := requestLoop_malformed_immediate t j MAX_RETRIES 0 k (Nat.zero_add _)
      (Nat.zero_le k) hk (fun i _ hi2 => hpre i hi2) hmal
    exact ⟨h.1, by simpa using h.2⟩
  · intro i d hd
    exact requestLoop_retry_delay t j MAX_RETRIES 0 i d hd
  · intro d hd
    exact requestLoop_malformed_pause t j MAX_RETRIES 0 d hd

/-- C8 amended witness: a permanently rate-limited transport exhausts its
attempts and yields `None` with first retry delay exactly
`min(2 * 2 ^ 0 + 0, 30)`; an immediately malformed transport yields `None`
after one attempt with a flat 2-second pause. -/
theorem C8_amended_retry_client_witness :
    (makeRequestWithRetry (fun _ => Resp.rateLimited) (fun _ => 0)).result = none ∧
    ((makeRequestWithRetry (fun n => if n = 0 then Resp.malformed else Resp.success 7)
        (fun _ => 0)).result = none ∧
      (makeRequestWithRetry (fun n => if n = 0 then Resp.malformed else Resp.success 7)
        (fun _ => 0)).attempts = 0 + 1) ∧
    (2 : ℚ) = min (BASE_DELAY * 2 ^ 0 + 0) MAX_DELAY ∧
    (2 : ℚ) = BASE_DELAY := by
  refine ⟨?_, ?_, ?_, ?_⟩
  · exact (C8_amended_retry_client (fun _ => Resp.rateLimited) (fun _ => 0)).1
      (fun n b _ h => by cases h)
  · exact (C8_amended_retry_client
      (fun n => if n = 0 then Resp.malformed else Resp.success 7) (fun _ => 0)).2.1 0
      (by decide) (fun i hi => absurd hi (Nat.not_lt_zero i)) rfl
  · have hb : backoffDelay (fun _ => (0 : ℚ)) 0 = 2 := by
      norm_num [backoffDelay, BASE_DELAY, MAX_DELAY, min_def]
    refine (C8_amended_retry_client (fun _ => Resp.rateLimited) (fun _ => 0)).2.2.1 0 2 ?_
    rw [show (2 : ℚ) = backoffDelay (fun _ => 0) 0 from hb.symm]
    exact List.mem_cons_self _ _
  · exact (C8_amended_retry_client
      (fun n => if n = 0 then Resp.malformed else Resp.success 7) (fun _ => 0)).2.2.2 2
      (List.mem_cons_self _ _)

/-! ### C2 and C3: lemmas about the fill deduplication pipeline -/

lemma sw_open_long : strStartsWith "Open Long" "Open" = true := by decide

lemma sw_open_short : strStartsWith "Open Short" "Open" = true := by decide

lemma sw_close_long : strStartsWith "Close Long" "Open" = false := by decide

lemma sw_close_short : strStartsWith "Close Short" "Open" = false := by decide

lemma tradeToFill_isLong (t : Trade) : fillIsLong (tradeToFill t) = t.is_long := by
  obtain ⟨c, sz, ep, pv, ts, io, il⟩ := t
  cases il <;> cases io <;> simp [tradeToFill, fillIsLong]

lemma tradeToFill_isOpen (t : Trade) : fillIsOpen (tradeToFill t) = t.is_open := by
  obtain ⟨c, sz, ep, pv, ts, io, il⟩ := t
  cases il <;> cases io <;>
    simp [tradeToFill, fillIsOpen, sw_open_long, sw_open_short, sw_close_long,
      sw_close_short]

lemma tradeToFill_sz (t : Trade) :
    (tradeToFill t).sz = if t.is_long then t.size else -t.size := rfl

lemma tradeToFill_px (t : Trade) : (tradeToFill t).px = t.entry_price := rfl

lemma tradeToFill_time (t : Trade) : (tradeToFill t).time = t.timestamp := rfl

lemma tradeToFill_coin (t : Trade) : (tradeToFill t).coin = t.coin := rfl

lemma tradeKey_tradeToFill (w : String) (t : Trade) :
    tradeKey w (tradeToFill t) = keyOfTrade w t := by
  simp only [tradeKey, keyOfTrade, tradeToFill_isLong, tradeToFill_isOpen,
    tradeToFill_sz, tradeToFill_px, tradeToFill_time, tradeToFill_coin]

lemma keyOfTrade_toTrade (w : String) (f : Fill) :
    keyOfTrade w (toTrade f) = tradeKey w f := by
  cases h : fillIsLong f <;> simp [keyOfTrade, toTrade, tradeKey, h]

lemma toTrade_eq_of_key_eq {w : String} {f g : Fill}
    (h : tradeKey w f = tradeKey w g) : toTrade f = toTrade g := by
  simp only [tradeKey, TradeKey.mk.injEq] at h
  obtain ⟨h1, h2, h3, h4, h5, h6⟩ := h
  simp [toTrade, h1, h2, h3, h4, h5, h6]

lemma toTrade_position_value (f : Fill) :
    (toTrade f).position_value =
      (if (toTrade f).is_long then (toTrade f).size else -(toTrade f).size) *
        (toTrade f).entry_price := by
  cases h : fillIsLong f <;> simp [toTrade, h]

lemma toTrade_tradeToFill (t : Trade)
    (hv : t.position_value = (if t.is_long then t.size else -t.size) * t.entry_price) :
    toTrade (tradeToFill t) = t := by
  obtain ⟨c, sz, ep, pv, ts, io, il⟩ := t
  cases il <;> cases io <;>
    simp_all [toTrade, tradeToFill, fillIsLong, fillIsOpen, sw_open_long, sw_open_short,
      sw_close_long, sw_close_short]

lemma mem_dictInsert_keys {α β : Type} [DecidableEq α]
    {l : List (α × β)} {k x : α} {v : β} :
    x ∈ (dictInsert l k v).map Prod.fst ↔ x ∈ l.map Prod.fst ∨ x = k := by
  induction l with
  | nil => simp [dictInsert]
  | cons hd tl ih =>
      obtain ⟨k1, v1⟩ := hd
      by_cases h : k1 = k
      · subst h
        simp [dictInsert]
        tauto
      · simp [dictInsert, h, ih]
        tauto

lemma dictInsert_keys_nodup {α β : Type} [DecidableEq α]
    {l : List (α × β)} (h : (l.map Prod.fst).Nodup) (k : α) (v : β) :
    ((dictInsert l k v).map Prod.fst).Nodup := by
  induction l with
  | nil => simp [dictInsert]
  | cons hd tl ih =>
      obtain ⟨k1, v1⟩ := hd
      simp only [List.map_cons, List.nodup_cons] at h
      by_cases hk : k1 = k
      · subst hk
        simpa [dictInsert] using h
      · simp only [dictInsert, if_neg hk, List.map_cons, List.nodup_cons]
        refine ⟨?_, ih h.2⟩
        rw [mem_dictInsert_keys]
        rintro (hc | hc)
        · exact h.1 hc
        · exact hk hc

lemma self_mem_dictInsert {α β : Type} [DecidableEq α]
    (l : List (α × β)) (k : α) (v : β) : (k, v) ∈ dictInsert l k v := by
  induction l with
  | nil => simp [dictInsert]
  | cons hd tl ih =>
      obtain ⟨k1, v1⟩ := hd
      by_cases h : k1 = k
      · subst h
        simp [dictInsert]
      · simp only [dictInsert, if_neg h, List.mem_cons]
        exact Or.inr ih

lemma mem_dictInsert_of_ne {α β : Type} [DecidableEq α]
    {l : List (α × β)} {k0 k : α} {v0 : β} (v : β)
    (hm : (k, v) ∈ l) (hne : k ≠ k0) : (k, v) ∈ dictInsert l k0 v0 := by
  induction l with
  | nil => simp at hm
  | cons hd tl ih =>
      obtain ⟨k1, v1⟩ := hd
      rcases List.mem_cons.mp hm with he | hm'
      · by_cases h : k1 = k0
        · subst h
          cases he
          exact absurd rfl hne
        · simp only [dictInsert, if_neg h, List.mem_cons]
          exact Or.inl he
      · by_cases h : k1 = k0
        · subst h
          simp only [dictInsert, if_pos rfl, List.mem_cons]
          right
          exact hm'
        · simp only [dictInsert, if_neg h, List.mem_cons]
          exact Or.inr (ih hm')

lemma collect_fold_mem (w : String) (c1 c2 : Int) :
    ∀ (fills : List Fill) (m : List (TradeKey × Trade)) (p : TradeKey × Trade),
      p ∈ fills.foldl
          (fun m f =>
            if fillPasses c1 c2 f then dictInsert m (tradeKey w f) (toTrade f) else m) m →
      p ∈ m ∨ ∃ f ∈ fills, fillPasses c1 c2 f = true ∧ p = (tradeKey w f, toTrade f)
  | [], _, _ => fun hp => Or.inl hp
  | f :: fs, m, p => fun hp => by
      rw [List.foldl_cons] at hp
      rcases collect_fold_mem w c1 c2 fs _ p hp with hm | ⟨g, hg, hpass, hpeq⟩
      · by_cases hf : fillPasses c1 c2 f
        · rw [if_pos hf] at hm
          rcases mem_dictInsert hm with hm' | hm'
          · exact Or.inl hm'
          · exact Or.inr ⟨f, List.mem_cons_self f fs, hf, hm'⟩
        · rw [if_neg hf] at hm
          exact Or.inl hm
      · exact Or.inr ⟨g, List.mem_cons_of_mem f hg, hpass, hpeq⟩

lemma collect_fold_keys_nodup (w : String) (c1 c2 : Int) :
    ∀ (fills : List Fill) (m : List (TradeKey × Trade)),
      (m.map Prod.fst).Nodup →
      ((fills.foldl
          (fun m f =>
            if fillPasses c1 c2 f then dictInsert m (tradeKey w f) (toTrade f) else m)
          m).map Prod.fst).Nodup
  | [], _ => fun h => h
  | f :: fs, m => fun h => by
      rw [List.foldl_cons]
      apply collect_fold_keys_nodup w c1 c2 fs
      by_cases hf : fillPasses c1 c2 f
      · rw [if_pos hf]
        exact dictInsert_keys_nodup h _ _
      · rwa [if_neg hf]

lemma collect_fold_preserves (w : String) (c1 c2 : Int) :
    ∀ (fills : List Fill) (m : List (TradeKey × Trade)) (k : TradeKey) (v : Trade),
      (k, v) ∈ m →
      (∀ g ∈ fills, fillPasses c1 c2 g = true → tradeKey w g = k → toTrade g = v) →
      (k, v) ∈ fills.foldl
        (fun m f =>
          if fillPasses c1 c2 f then dictInsert m (tradeKey w f) (toTrade f) else m) m
  | [], _, _, _ => fun hm _ => hm
  | f :: fs, m, k, v => fun hm hinv => by
      rw [List.foldl_cons]
      apply collect_fold_preserves w c1 c2 fs _ k v
      · by_cases hf : fillPasses c1 c2 f
        · rw [if_pos hf]
          by_cases hk : tradeKey w f = k
          · have hv := hinv f (List.mem_cons_self f fs) hf hk
            rw [← hk, ← hv]
            exact self_mem_dictInsert _ _ _
          · exact mem_dictInsert_of_ne _ hm (fun he => hk he.symm)
        · rwa [if_neg hf]
      · exact fun g hg => hinv g (List.mem_cons_of_mem f hg)

lemma collect_fold_mem_of_passes (w : String) (c1 c2 : Int) :
    ∀ (fills : List Fill) (m : List (TradeKey × Trade)) (f : Fill),
      f ∈ fills → fillPasses c1 c2 f = true →
      (tradeKey w f, toTrade f) ∈ fills.foldl
        (fun m f =>
          if fillPasses c1 c2 f then dictInsert m (tradeKey w f) (toTrade f) else m) m
  | [], _, f => fun hf _ => absurd hf (List.not_mem_nil f)
  | g :: gs, m, f => fun hf hp => by
      rw [List.foldl_cons]
      rcases List.mem_cons.mp hf with he | hmem
      · subst he
        apply collect_fold_preserves w c1 c2 gs _ _ _
        · rw [if_pos hp]
          exact self_mem_dictInsert _ _ _
        · intro g hg hpg hkey
          exact toTrade_eq_of_key_eq hkey
      · exact collect_fold_mem_of_passes w c1 c2 gs _ f hmem hp

lemma collect_fold_append_of_nodup (w : String) (c1 c2 : Int) :
    ∀ (fs : List Fill) (m : List (TradeKey × Trade)),
      (∀ f ∈ fs, fillPasses c1 c2 f = true) →
      (fs.map (tradeKey w)).Nodup →
      (∀ f ∈ fs, tradeKey w f ∉ m.map Prod.fst) →
      fs.foldl
          (fun m f =>
            if fillPasses c1 c2 f then dictInsert m (tradeKey w f) (toTrade f) else m)
          m =
        m ++ fs.map (fun f => (tradeKey w f, toTrade f))
  | [], m => by
      intro _ _ _
      simp
  | f :: fs, m => fun hpass hnodup hnot => by
      simp only [List.map_cons, List.nodup_cons] at hnodup
      rw [List.foldl_cons, if_pos (hpass f (List.mem_cons_self f fs)),
        dictInsert_of_not_mem _ (hnot f (List.mem_cons_self f fs))]
      rw [collect_fold_append_of_nodup w c1 c2 fs (m ++ [(tradeKey w f, toTrade f)])
        (fun g hg => hpass g (List.mem_cons_of_mem f hg))
        hnodup.2
        (fun g hg => by
          rw [List.map_append, List.mem_append]
          rintro (hc | hc)
          · exact hnot g (List.mem_cons_of_mem f hg) hc
          · simp only [List.map_cons, List.map_nil, List.mem_singleton] at hc
            exact hnodup.1 (hc ▸ List.mem_map_of_mem (tradeKey w) hg))]
      simp

lemma getRecentPositions_mem (w : String) (c1 c2 : Int) (fills : List Fill) :
    ∀ t ∈ getRecentPositions w c1 c2 fills,
      ∃ f ∈ fills, fillPasses c1 c2 f = true ∧ t = toTrade f := by
  intro t ht
  rw [getRecentPositions, List.mem_insertionSort, List.mem_map] at ht
  obtain ⟨p, hp, hpt⟩ := ht
  rcases collect_fold_mem w c1 c2 fills [] p (by simpa [collectTrades] using hp) with
    hm | ⟨f, hf, hpass, hpeq⟩
  · simp at hm
  · refine ⟨f, hf, hpass, ?_⟩
    rw [← hpt, hpeq]

lemma getRecentPositions_keys_nodup (w : String) (c1 c2 : Int) (fills : List Fill) :
    ((getRecentPositions w c1 c2 fills).map (keyOfTrade w)).Nodup := by
  have hN : ((collectTrades w c1 c2 fills).map Prod.fst).Nodup := by
    simpa [collectTrades] using collect_fold_keys_nodup w c1 c2 fills [] (by simp)
  have hEq : (collectTrades w c1 c2 fills).map (fun p => keyOfTrade w p.2) =
      (collectTrades w c1 c2 fills).map Prod.fst := by
    apply List.map_congr_left
    intro p hp
    rcases collect_fold_mem w c1 c2 fills [] p (by simpa [collectTrades] using hp) with
      hm | ⟨f, _, _, hpeq⟩
    · simp at hm
    · rw [hpeq]
      exact keyOfTrade_toTrade w f
  have hperm : List.Perm ((getRecentPositions w c1 c2 fills).map (keyOfTrade w))
      (((collectTrades w c1 c2 fills).map Prod.snd).map (keyOfTrade w)) :=
    (List.perm_insertionSort tradeLE _).map _
  refine hperm.nodup_iff.mpr ?_
  rw [List.map_map]
  have hcomp : (collectTrades w c1 c2 fills).map (keyOfTrade w ∘ Prod.snd) =
      (collectTrades w c1 c2 fills).map (fun p => keyOfTrade w p.2) := rfl
  rw [hcomp, hEq]
  exact hN

lemma toTrade_mem_getRecentPositions {w : String} {c1 c2 : Int} {fills : List Fill}
    {f : Fill} (hf : f ∈ fills) (hp : fillPasses c1 c2 f = true) :
    toTrade f ∈ getRecentPositions w c1 c2 fills := by
  rw [getRecentPositions, List.mem_insertionSort, List.mem_map]
  refine ⟨(tradeKey w f, toTrade f), ?_, rfl⟩
  simpa [collectTrades] using collect_fold_mem_of_passes w c1 c2 fills [] f hf hp

lemma getRecentPositions_sorted (w : String) (c1 c2 : Int) (fills : List Fill) :
    List.Sorted tradeLE (getRecentPositions w c1 c2 fills) :=
  List.sorted_insertionSort tradeLE _

lemma fillPasses_iff (c1 c2 : Int) (f : Fill) :
    fillPasses c1 c2 f = true ↔
      strLower f.orderType ≠ "twap" ∧ c1 ≤ f.time ∧ f.time ≤ c2 ∧
        MIN_POSITION_VALUE ≤ |f.sz * f.px| := by
  simp [fillPasses, and_assoc]

/-- C2: every element of the deduplicated output of `get_recent_positions`
comes from an input fill that is not TWAP-tagged, lies inside the inclusive
time window and has absolute notional value at least `MIN_POSITION_VALUE`;
every output element itself has absolute notional at least the threshold;
output keys are pairwise distinct and every surviving fill's record appears
(a key determines its record, so the kept record is the first occurrence's);
and the output is sorted ascending by timestamp. -/
theorem C2_dedupe_output (w : String) (c1 c2 : Int) (fills : List Fill) :
    (∀ t ∈ getRecentPositions w c1 c2 fills,
      ∃ f ∈ fills, strLower f.orderType ≠ "twap" ∧ c1 ≤ f.time ∧ f.time ≤ c2 ∧
        MIN_POSITION_VALUE ≤ |f.sz * f.px| ∧ t = toTrade f) ∧
    (∀ t ∈ getRecentPositions w c1 c2 fills,
      MIN_POSITION_VALUE ≤ |t.position_value|) ∧
    ((getRecentPositions w c1 c2 fills).map (keyOfTrade w)).Nodup ∧
    (∀ f ∈ fills, fillPasses c1 c2 f = true →
      toTrade f ∈ getRecentPositions w c1 c2 fills) ∧
    (∀ f g : Fill, tradeKey w f = tradeKey w g → toTrade f = toTrade g) ∧
    List.Sorted tradeLE (getRecentPositions w c1 c2 fills) := by
  refine ⟨?_, ?_, getRecentPositions_keys_nodup w c1 c2 fills,
    fun f hf hp => toTrade_mem_getRecentPositions hf hp,
    fun f g h => toTrade_eq_of_key_eq h,
    getRecentPositions_sorted w c1 c2 fills⟩
  · intro t ht
    obtain ⟨f, hf, hpass, hteq⟩ := getRecentPositions_mem w c1 c2 fills t ht
    obtain ⟨h1, h2, h3, h4⟩ := (fillPasses_iff c1 c2 f).mp hpass
    exact ⟨f, hf, h1, h2, h3, h4, hteq⟩
  · intro t ht
    obtain ⟨f, _, hpass, hteq⟩ := getRecentPositions_mem w c1 c2 fills t ht
    obtain ⟨_, _, _, h4⟩ := (fillPasses_iff c1 c2 f).mp hpass
    rw [hteq]
    simpa [toTrade] using h4

/-- C2 witness: a four-fill input with a duplicate, a TWAP fill and an
in-window sub-threshold check exercises every conjunct at a concrete
element. -/
theorem C2_dedupe_output_witness :
    (∃ f ∈ [(⟨"Market", 5, "ETH", "Open Long", 3, 40000⟩ : Fill),
            ⟨"Market", 5, "ETH", "Open Long", 3, 40000⟩,
            ⟨"Twap", 4, "BTC", "Open Long", 2, 60000⟩,
            ⟨"Market", 3, "SOL", "Open Short", 1, 120000⟩],
      strLower f.orderType ≠ "twap" ∧ (0 : Int) ≤ f.time ∧ f.time ≤ 10 ∧
        MIN_POSITION_VALUE ≤ |f.sz * f.px| ∧
        (⟨"SOL", -1, 120000, 120000, 3, true, false⟩ : Trade) = toTrade f) ∧
    List.Sorted tradeLE
      (getRecentPositions "w" 0 10
        [⟨"Market", 5, "ETH", "Open Long", 3, 40000⟩,
         ⟨"Market", 5, "ETH", "Open Long", 3, 40000⟩,
         ⟨"Twap", 4, "BTC", "Open Long", 2, 60000⟩,
         ⟨"Market", 3, "SOL", "Open Short", 1, 120000⟩]) := by
  have h := C2_dedupe_output "w" 0 10
    [⟨"Market", 5, "ETH", "Open Long", 3, 40000⟩,
     ⟨"Market", 5, "ETH", "Open Long", 3, 40000⟩,
     ⟨"Twap", 4, "BTC", "Open Long", 2, 60000⟩,
     ⟨"Market", 3, "SOL", "Open Short", 1, 120000⟩]
  refine ⟨h.1 ⟨"SOL", -1, 120000, 120000, 3, true, false⟩ (by decide), h.2.2.2.2.2⟩

lemma tradeToFill_toTrade_sz (f : Fill) : (tradeToFill (toTrade f)).sz = f.sz := by
  cases h : fillIsLong f <;> simp [tradeToFill_sz, toTrade, h]

lemma fillPasses_tradeToFill_toTrade {c1 c2 : Int} {f : Fill}
    (h : fillPasses c1 c2 f = true) :
    fillPasses c1 c2 (tradeToFill (toTrade f)) = true := by
  obtain ⟨h1, h2, h3, h4⟩ := (fillPasses_iff c1 c2 f).mp h
  refine (fillPasses_iff c1 c2 (tradeToFill (toTrade f))).mpr ⟨?_, ?_, ?_, ?_⟩
  · show strLower "" ≠ "twap"
    decide
  · exact h2
  · exact h3
  · have hsz := tradeToFill_toTrade_sz f
    have hpx : (tradeToFill (toTrade f)).px = f.px := rfl
    rw [hsz, hpx]
    exact h4

lemma toTrade_tradeToFill_toTrade (f : Fill) :
    toTrade (tradeToFill (toTrade f)) = toTrade f :=
  toTrade_tradeToFill (toTrade f) (toTrade_position_value f)

/-- C3: the deduplication pipeline is idempotent: re-encoding its output as
fills (with the canonical direction labels) and running it again returns the
same output. -/
theorem C3_dedupe_idempotent (w : String) (c1 c2 : Int) (fills : List Fill) :
    getRecentPositions w c1 c2 ((getRecentPositions w c1 c2 fills).map tradeToFill) =
      getRecentPositions w c1 c2 fills := by
  have hprov := getRecentPositions_mem w c1 c2 fills
  have hpass2 : ∀ x ∈ (getRecentPositions w c1 c2 fills).map tradeToFill,
      fillPasses c1 c2 x = true := by
    intro x hx
    rw [List.mem_map] at hx
    obtain ⟨t, ht, rfl⟩ := hx
    obtain ⟨f, _, hpf, rfl⟩ := hprov t ht
    exact fillPasses_tradeToFill_toTrade hpf
  have hkeys2 : (((getRecentPositions w c1 c2 fills).map tradeToFill).map
      (tradeKey w)).Nodup := by
    rw [List.map_map]
    have hc : (getRecentPositions w c1 c2 fills).map (tradeKey w ∘ tradeToFill) =
        (getRecentPositions w c1 c2 fills).map (keyOfTrade w) :=
      List.map_congr_left (fun t _ => tradeKey_tradeToFill w t)
    rw [hc]
    exact getRecentPositions_keys_nodup w c1 c2 fills
  have hfold : collectTrades w c1 c2 ((getRecentPositions w c1 c2 fills).map tradeToFill) =
      ((getRecentPositions w c1 c2 fills).map tradeToFill).map
        (fun x => (tradeKey w x, toTrade x)) := by
    have h := collect_fold_append_of_nodup w c1 c2
      ((getRecentPositions w c1 c2 fills).map tradeToFill) [] hpass2 hkeys2 (by simp)
    simpa [collectTrades] using h
  rw [getRecentPositions, hfold, List.map_map, List.map_map]
  have hid : (getRecentPositions w c1 c2 fills).map
      ((Prod.snd ∘ fun x => (tradeKey w x, toTrade x)) ∘ tradeToFill) =
      (getRecentPositions w c1 c2 fills).map id := by
    apply List.map_congr_left
    intro t ht
    obtain ⟨f, _, _, rfl⟩ := hprov t ht
    exact toTrade_tradeToFill_toTrade f
  rw [hid, List.map_id]
  exact (getRecentPositions_sorted w c1 c2 fills).insertionSort_eq
